import Mathlib

/-!
Verification development for the git-dit core (garbage collection of
dit references and issue resolution).

The development shallowly embeds the two source modules:

* `gc.rs` — `CollectableRefs` and its `for_issue` computation, which
  decides which dit references of an issue are collectable by walking
  ancestor chains of seed commits and matching watched references
  against visited commits.
* `repository.rs` — the `RepositoryExt` extension trait: `find_issue`,
  `issue_by_head_ref` and `issue_with_message`.

External collaborators (the git object database, reference store and
the iterator helpers `RefsReferringTo` / `Messages` living outside the
two embedded files) are modelled from the specification's interface
description: the object graph is a finite map from commit ids to
parent lists, references are named pointers to commit ids, and the
revwalk is an ancestor-closure traversal that visits every reachable
commit exactly once and fails on unknown commits.
-/

namespace GitDit

/-- Commit identifier (git object id).  Content addresses are opaque
comparable values; we model them as naturals. -/
abbrev NodeId := Nat

/-- Modelled from the spec: a reference is a named pointer resolving to
exactly one commit id.  Peeling a reference yields its target id. -/
structure Ref where
  name : String
  target : NodeId
deriving DecidableEq, Repr

/-- Modelled from the spec: the object graph accessor.  `dom` is the
finite set of commit ids present in the object database; `par` returns
the parent ids of a commit (meaningful only on `dom`). -/
structure Graph where
  dom : List NodeId
  par : NodeId → List NodeId

/-- Error kinds, mirroring `error::Kind` of the repository plus the
failure modes of the underlying git layer.  `outOfFuel` is the
embedding's rendering of a traversal that never terminates (impossible
on finite object databases; proved unreachable for walks whose
reachable closure lies inside `dom`). -/
inductive EK where
  | cannotConstructRevwalk
  | cannotGetCommit
  | cannotGetCommitForRev (id : NodeId)
  | unknownNode (id : NodeId)
  | cannotFindIssueHead (id : NodeId)
  | malFormedHeadReference (name : List Char)
  | oidFormatError (seg : List Char)
  | noTreeInitFound (id : NodeId)
  | outOfFuel
deriving DecidableEq, Repr

/-- Ancestry relation `Reaches g a b` : commit `b` is an ancestor of commit `a`
(inclusively): `b` is visited by an ancestor-closure walk seeded at
`a`.  Steps follow parent links and only commits present in the object
database have parents. -/
inductive Reaches (g : Graph) : NodeId → NodeId → Prop where
  | refl (a : NodeId) : Reaches g a a
  | head {a b c : NodeId} : a ∈ g.dom → b ∈ g.par a → Reaches g b c → Reaches g a c

/-- The object graph is a DAG: no commit is an ancestor of one of its
parents (data-model invariant of the spec). -/
def Dag (g : Graph) : Prop :=
  ∀ a b, a ∈ g.dom → b ∈ g.par a → ¬ Reaches g b a

/-- Sum of the parent-list lengths of the members of `l` that are not
yet visited.  Used as the fuel bound of the revwalk. -/
def parSum (g : Graph) (l v : List NodeId) : Nat :=
  match l with
  | [] => 0
  | d :: ds => (if d ∈ v then 0 else (g.par d).length) + parSum g ds v

/-- Modelled from the spec: the ancestor frontier / revwalk loop.  The
frontier is a worklist; every popped commit is visited at most once,
its parents are scheduled, and an unknown commit aborts the walk.
Fuel is an embedding artefact: `walk` supplies enough fuel for any
traversal whose reachable closure lies inside the object database. -/
def walkAux (g : Graph) : Nat → List NodeId → List NodeId → Except EK (List NodeId)
  | _, [], visited => .ok visited
  | 0, _ :: _, _ => .error .outOfFuel
  | fuel+1, n :: rest, visited =>
    if n ∈ visited then walkAux g fuel rest visited
    else if n ∈ g.dom then walkAux g fuel (g.par n ++ rest) (n :: visited)
    else .error (.unknownNode n)

/-- Modelled from the spec: drive a revwalk seeded with `seeds` to
exhaustion, returning the set (list) of visited commit ids. -/
def walk (g : Graph) (seeds : List NodeId) : Except EK (List NodeId) :=
  walkAux g (seeds.length + parSum g g.dom [] + 1) seeds []

/-- Modelled from the spec: peel a reference to the commit it
designates (`Reference::peel(ObjectType::Commit)`); fails with
`CannotGetCommit` when the referred object is not a commit of the
object database. -/
def peel (g : Graph) (r : Ref) : Except EK NodeId :=
  if r.target ∈ g.dom then .ok r.target else .error .cannotGetCommit

/-- Modelled from the spec: `Object::into_commit` followed by
`Commit::parent_ids` — the parent ids of a commit of the object
database. -/
def parentsOf (g : Graph) (n : NodeId) : Except EK (List NodeId) :=
  if n ∈ g.dom then .ok (g.par n) else .error (.cannotGetCommitForRev n)

/-- Effectful map over a list in the `Except` monad (the `for` loops of
the source). -/
def mapE {α β : Type} (f : α → Except EK β) : List α → Except EK (List β)
  | [] => .ok []
  | x :: xs => do
    let y ← f x
    let ys ← mapE f xs
    .ok (y :: ys)

/-- Embeds `CollectableRefs::push_ref_parents`: peel the reference to its
commit and return that commit's parent ids — the ids pushed into the
revwalk.  The reference's own commit is never among them. -/
def pushRefParents (g : Graph) (r : Ref) : Except EK (List NodeId) := do
  let t ← peel g r
  parentsOf g t

/-- Embeds `gc::ReferenceCollectionSpec`. -/
inductive ReferenceCollectionSpec where
  | Never
  | BackedByRemoteHead
deriving DecidableEq, Repr

/-- Embeds the `gc::CollectableRefs` configuration (the repository handle is
passed separately as the `Graph`/`IssueState`). -/
structure CollectableRefs where
  considerRemoteRefs : Bool
  collectHeads : ReferenceCollectionSpec
deriving DecidableEq, Repr

/-- Embeds `CollectableRefs::new`: by default only local references are
considered and heads are never collected. -/
def CollectableRefs.new : CollectableRefs :=
  { considerRemoteRefs := false, collectHeads := .Never }

/-- Embeds the `CollectableRefs::consider_remote_refs` builder. -/
def CollectableRefs.withRemoteRefs (c : CollectableRefs) (option : Bool) :
    CollectableRefs :=
  { c with considerRemoteRefs := option }

/-- Embeds the `CollectableRefs::collect_heads` builder. -/
def CollectableRefs.withCollectHeads (c : CollectableRefs)
    (condition : ReferenceCollectionSpec) : CollectableRefs :=
  { c with collectHeads := condition }

/-- Modelled from the spec: the dit references of one issue, as seen
through `Issue::local_head`, `Issue::local_refs(Leaf)`,
`Issue::remote_refs(Head)` and `Issue::remote_refs(Any)`.
`localHead = none` models an absent local head reference. -/
structure IssueState where
  localHead : Option Ref
  localLeaves : List Ref
  remoteHeads : List Ref
  remoteLeaves : List Ref
deriving DecidableEq, Repr

/-- Data-model invariant (spec §3): reference names are unique, hence
the local head, local leaf and remote references of an issue are
pairwise distinct. -/
def IssueState.WF (I : IssueState) : Prop :=
  (∀ h ∈ I.localHead.toList,
    h ∉ I.localLeaves ∧ h ∉ I.remoteHeads ∧ h ∉ I.remoteLeaves) ∧
  (∀ l ∈ I.localLeaves, l ∉ I.remoteHeads ∧ l ∉ I.remoteLeaves)

instance (I : IssueState) : Decidable I.WF := by
  unfold IssueState.WF
  infer_instance

/-- The seeds of the separate head-collection revwalk (`head_history`):
empty under `Never`, the remote head references' commits under
`BackedByRemoteHead`. -/
def headSeeds (g : Graph) (cfg : CollectableRefs) (I : IssueState) :
    Except EK (List NodeId) :=
  match cfg.collectHeads with
  | .Never => .ok []
  | .BackedByRemoteHead => mapE (peel g) I.remoteHeads

/-- The seed contributed to the main revwalk by the local head
reference: its target commit (pushed so that it anchors the retained
baseline), or nothing when the issue has no local head. -/
def baseSeeds (g : Graph) (I : IssueState) : Except EK (List NodeId) :=
  match I.localHead with
  | none => .ok []
  | some h => do
    let t ← peel g h
    .ok [t]

/-- The seeds contributed to the main revwalk by the local leaf
references: the parents of each leaf's commit (per
`push_ref_parents`), never the leaf commits themselves. -/
def leafSeeds (g : Graph) (I : IssueState) : Except EK (List NodeId) := do
  let pss ← mapE (pushRefParents g) I.localLeaves
  .ok pss.flatten

/-- The seeds contributed to the main revwalk by remote references:
every remote reference's commit when `consider_remote_refs` is set,
nothing otherwise. -/
def remoteSeeds (g : Graph) (cfg : CollectableRefs) (I : IssueState) :
    Except EK (List NodeId) :=
  if cfg.considerRemoteRefs then mapE (peel g) (I.remoteHeads ++ I.remoteLeaves)
  else .ok []

/-- All seeds of the main revwalk of `for_issue`, in push order: the
local head's commit, the parents of the local leaves' commits, and the
remote references' commits when configured. -/
def mainSeedsOf (g : Graph) (cfg : CollectableRefs) (I : IssueState) :
    Except EK (List NodeId) := do
  let b ← baseSeeds g I
  let ls ← leafSeeds g I
  let rs ← remoteSeeds g cfg I
  .ok (b ++ ls ++ rs)

/-- The head-collection part of `for_issue`: when a local head exists,
drive the separate revwalk seeded per `collect_heads` with the local
head watched; the head is collected exactly when its commit is visited
by that separate walk.  An absent local head contributes nothing and
is not an error. -/
def headPart (g : Graph) (cfg : CollectableRefs) (I : IssueState) :
    Except EK (List Ref) :=
  match I.localHead with
  | none => .ok []
  | some h => do
    let ht ← peel g h
    let hs ← headSeeds g cfg I
    let vh ← walk g hs
    .ok (if ht ∈ vh then [h] else [])

/-- Embeds `CollectableRefs::for_issue`, including the drain of the returned
`RefsReferringTo` iterator: the collectable references of one issue.
A local leaf is collected exactly when its commit is visited by the
main revwalk; the local head is handled by `headPart`. -/
def forIssue (g : Graph) (cfg : CollectableRefs) (I : IssueState) :
    Except EK (List Ref) := do
  let headOut ← headPart g cfg I
  let S ← mainSeedsOf g cfg I
  let V ← walk g S
  .ok (headOut ++ I.localLeaves.filter (fun l => decide (l.target ∈ V)))

/-- Physically delete the collected references from the issue's
reference store (the effect of draining the deleting iterator). -/
def applyCollection (I : IssueState) (R : List Ref) : IssueState where
  localHead := match I.localHead with
    | none => none
    | some h => if h ∈ R then none else some h
  localLeaves := I.localLeaves.filter (fun l => decide (l ∉ R))
  remoteHeads := I.remoteHeads.filter (fun r => decide (r ∉ R))
  remoteLeaves := I.remoteLeaves.filter (fun r => decide (r ∉ R))

/-- Modelled from the spec: the reference store of a repository as
seen by the unit resolver — for each root commit id, the boundary
(head) references existing for it (`Issue::heads`). -/
structure Repo where
  headRefs : NodeId → List Ref

/-- An issue handle (`issue::Issue`): its identity is exactly the root
commit id.  Modelled from the spec: `Issue::new` merely constructs the
handle. -/
structure Issue where
  id : NodeId
deriving DecidableEq, Repr

/-- Embeds `RepositoryExt::find_issue`: construct the issue handle and
require at least one boundary (head) reference to exist for the root
id; fail with `CannotFindIssueHead` otherwise. -/
def findIssue (R : Repo) (id : NodeId) : Except EK Issue :=
  match R.headRefs id with
  | [] => .error (.cannotFindIssueHead id)
  | _ :: _ => .ok ⟨id⟩

/-- First-parent chain (`first_parent_messages`): the ids yielded by a
revwalk restricted to first parents starting at `n`, in child-before-
parent order, together with the terminal error of the iteration if the
walk hit a commit missing from the object database.  Fuel is an
embedding artefact; `|dom| + 1` steps suffice on a DAG. -/
def firstParentChainAux (g : Graph) : Nat → NodeId → List NodeId × Option EK
  | 0, _ => ([], some .outOfFuel)
  | fuel+1, n =>
    if n ∈ g.dom then
      match g.par n with
      | [] => ([n], none)
      | p :: _ =>
        let r := firstParentChainAux g fuel p
        (n :: r.1, r.2)
    else ([], some (.unknownNode n))

/-- The first-parent chain starting at `n` (prefix of yielded ids and
optional terminal error). -/
def firstParentChain (g : Graph) (n : NodeId) : List NodeId × Option EK :=
  firstParentChainAux g (g.dom.length + 1) n

/-- The first id of the chain for which `find_issue` succeeds, if any
(the early-return loop of `issue_with_message`). -/
def firstOkIssue (R : Repo) : List NodeId → Option Issue
  | [] => none
  | id :: rest =>
    match findIssue R id with
    | .ok i => some i
    | .error _ => firstOkIssue R rest

/-- Embeds `RepositoryExt::issue_with_message`: follow the chain of first
parents towards an initial message for which a head exists; a
traversal error (`id?`) is propagated; if the walk exhausts without a
hit, fail with `NoTreeInitFound`. -/
def issueWithMessage (R : Repo) (g : Graph) (m : NodeId) : Except EK Issue :=
  match firstOkIssue R (firstParentChain g m).1 with
  | some i => .ok i
  | none =>
    match (firstParentChain g m).2 with
    | some e => .error e
    | none => .error (.noTreeInitFound m)

/-- Split a reference path into its `/`-separated segments
(accumulator of the current segment, reversed). -/
def splitSlashAux : List Char → List Char → List (List Char)
  | [], acc => [acc.reverse]
  | c :: cs, acc =>
    if c = '/' then acc.reverse :: splitSlashAux cs []
    else splitSlashAux cs (c :: acc)

/-- Split a reference path into its `/`-separated segments. -/
def splitSlash (l : List Char) : List (List Char) :=
  splitSlashAux l []

/-- The second-to-last element of a segment list — what
`name.rsplitn(3, "/").nth(1)` extracts in `issue_by_head_ref`. -/
def secondToLast (parts : List (List Char)) : Option (List Char) :=
  match parts.reverse with
  | _ :: x :: _ => some x
  | _ => none

/-- The fixed terminal segment (with its separator) identifying a
boundary reference: `/head`. -/
def slashHead : List Char := '/' :: 'h' :: 'e' :: 'a' :: 'd' :: []

/-- Hexadecimal digit test (`Oid::from_str` character validity). -/
def isHexDigit (c : Char) : Bool :=
  (('0' ≤ c ∧ c ≤ '9') ∨ ('a' ≤ c ∧ c ≤ 'f') ∨ ('A' ≤ c ∧ c ≤ 'F') : Prop)

/-- Value of a hexadecimal digit. -/
def hexVal (c : Char) : Nat :=
  if '0' ≤ c ∧ c ≤ '9' then c.toNat - 48
  else if 'a' ≤ c ∧ c ≤ 'f' then c.toNat - 87
  else if 'A' ≤ c ∧ c ≤ 'F' then c.toNat - 55
  else 0

/-- Modelled from the spec: `git2::Oid::from_str` — parse an object id
from a hexadecimal string of at most 40 digits. -/
def oidFromStr (l : List Char) : Option NodeId :=
  if l.length ≤ 40 ∧ l.all isHexDigit then
    some (l.foldl (fun a c => a * 16 + hexVal c) 0)
  else none

/-- Embeds `RepositoryExt::issue_by_head_ref`: keep the name only when it
ends with `/head`, extract the second-to-last path segment (splitting
from the end), report `MalFormedHeadReference` when either step fails,
parse the segment as an object id (reporting `OidFormatError` on
failure) and construct the issue handle for it. -/
def issueByHeadRef (_R : Repo) (name : Option (List Char)) : Except EK Issue :=
  match (name.bind fun n =>
      if slashHead.isSuffixOf n then some n else none).bind
      (fun n => secondToLast (splitSlash n)) with
  | none => .error (.malFormedHeadReference (name.getD []))
  | some seg =>
    match oidFromStr seg with
    | none => .error (.oidFormatError seg)
    | some id => .ok ⟨id⟩

/-- Discriminator: is an error the malformed-head-reference error? -/
def EK.isMalformedRef : EK → Bool
  | .malFormedHeadReference _ => true
  | _ => false

/-- Example object graph: commits 0–4, parent links 1→0, 2→1, 3→2,
4→2 (all decreasing, hence a DAG). -/
def gW : Graph :=
  ⟨[0, 1, 2, 3, 4], fun n =>
    if n = 1 then [0] else if n = 2 then [1]
    else if n = 3 then [2] else if n = 4 then [2] else []⟩

/-- Example issue: local head at commit 3, one local leaf at commit 1
(an ancestor of the head), one remote head at commit 4. -/
def iW : IssueState := ⟨some ⟨"h", 3⟩, [⟨"l1", 1⟩], [⟨"rh", 4⟩], []⟩

/-- Example issue: local head at commit 2, which is an ancestor of the
remote head commit 4. -/
def iW2 : IssueState := ⟨some ⟨"h", 2⟩, [], [⟨"rh", 4⟩], []⟩

/-- Example object graph with a dangling parent link: commit 5's
parent 7 is missing from the object database. -/
def gE : Graph := ⟨[5], fun n => if n = 5 then [7] else []⟩

/-- Example repository with no boundary references at all. -/
def rEmpty : Repo := ⟨fun _ => []⟩

/-- Example repository with a single issue rooted at commit 5. -/
def rOne : Repo := ⟨fun i => if i = 5 then [⟨"x", 5⟩] else []⟩

theorem parSum_mono (g : Graph) (n : NodeId) :
    ∀ l v, parSum g l (n :: v) ≤ parSum g l v := by
  intro l
  induction l with
  | nil => intro v; simp [parSum]
  | cons d ds ih =>
    intro v
    simp only [parSum]
    apply Nat.add_le_add _ (ih v)
    by_cases hdv : d ∈ v
    · simp [hdv]
    · by_cases hdn : d ∈ (n :: v) <;> simp [hdn, hdv]

theorem parSum_shift (g : Graph) (n : NodeId) :
    ∀ l v, n ∈ l → n ∉ v →
      parSum g l (n :: v) + (g.par n).length ≤ parSum g l v := by
  intro l
  induction l with
  | nil => intro v h; cases h
  | cons d ds ih =>
    intro v hmem hnv
    simp only [parSum]
    by_cases hdn : d = n
    · subst hdn
      have h1 : (if d ∈ d :: v then 0 else (g.par d).length) = 0 := by simp
      have h2 : (if d ∈ v then 0 else (g.par d).length) = (g.par d).length := by
        simp [hnv]
      rw [h1, h2, Nat.zero_add, Nat.add_comm]
      exact Nat.add_le_add_left (parSum_mono g d ds v) _
    · have hnds : n ∈ ds := by
        cases hmem with
        | head => exact absurd rfl hdn
        | tail _ h => exact h
      have hif : (if d ∈ n :: v then 0 else (g.par d).length)
          = (if d ∈ v then 0 else (g.par d).length) := by
        by_cases hdv : d ∈ v
        · simp [hdv]
        · have : d ∉ n :: v := by
            intro hc
            cases hc with
            | head => exact hdn rfl
            | tail _ h => exact hdv h
          simp [this, hdv]
      rw [hif, Nat.add_assoc]
      exact Nat.add_le_add_left (ih v hnds hnv) _

/-- Fuel sufficiency: a walk whose whole reachable closure lies inside
the object database succeeds (never runs out of fuel, never hits an
unknown commit). -/
theorem walkAux_ok_of_closed (g : Graph) :
    ∀ fuel f v, f.length + parSum g g.dom v ≤ fuel →
      (∀ x, (∃ s ∈ f, Reaches g s x) → x ∈ g.dom) →
      ∃ V, walkAux g fuel f v = .ok V := by
  intro fuel
  induction fuel with
  | zero =>
    intro f v hle _
    have : f.length = 0 := Nat.le_zero.mp (Nat.le_trans (Nat.le_add_right _ _) hle)
    have hf : f = [] := List.length_eq_zero.mp this
    subst hf
    exact ⟨v, rfl⟩
  | succ fuel ih =>
    intro f v hle hdom
    match f with
    | [] => exact ⟨v, rfl⟩
    | n :: rest =>
      have hn_dom : n ∈ g.dom :=
        hdom n ⟨n, List.mem_cons_self n rest, Reaches.refl n⟩
      by_cases hv : n ∈ v
      · simp only [walkAux, if_pos hv]
        apply ih rest v _ (fun x ⟨s, hs, hr⟩ => hdom x ⟨s, List.mem_cons_of_mem n hs, hr⟩)
        have : (n :: rest).length = rest.length + 1 := rfl
        omega
      · simp only [walkAux, if_neg hv, if_pos hn_dom]
        apply ih (g.par n ++ rest) (n :: v)
        · have hshift := parSum_shift g n g.dom v hn_dom hv
          have hlen : (g.par n ++ rest).length = (g.par n).length + rest.length := by
            simp
          have : (n :: rest).length = rest.length + 1 := rfl
          omega
        · rintro x ⟨s, hs, hr⟩
          rcases List.mem_append.mp hs with hsp | hsr
          · exact hdom x ⟨n, List.mem_cons_self n rest, Reaches.head hn_dom hsp hr⟩
          · exact hdom x ⟨s, List.mem_cons_of_mem n hsr, hr⟩

/-- On success, every already-visited commit is in the result. -/
theorem walkAux_visited_sub (g : Graph) :
    ∀ fuel f v V, walkAux g fuel f v = .ok V → ∀ x ∈ v, x ∈ V := by
  intro fuel
  induction fuel with
  | zero =>
    intro f v V h x hx
    match f, h with
    | [], h => cases h; exact hx
  | succ fuel ih =>
    intro f v V h x hx
    match f with
    | [] => cases h; exact hx
    | n :: rest =>
      simp only [walkAux] at h
      by_cases hv : n ∈ v
      · rw [if_pos hv] at h; exact ih rest v V h x hx
      · rw [if_neg hv] at h
        by_cases hd : n ∈ g.dom
        · rw [if_pos hd] at h
          exact ih _ _ V h x (List.mem_cons_of_mem n hx)
        · rw [if_neg hd] at h; cases h

/-- On success, every frontier commit is in the result. -/
theorem walkAux_frontier_sub (g : Graph) :
    ∀ fuel f v V, walkAux g fuel f v = .ok V → ∀ x ∈ f, x ∈ V := by
  intro fuel
  induction fuel with
  | zero =>
    intro f v V h x hx
    match f, h with
    | [], _ => cases hx
  | succ fuel ih =>
    intro f v V h x hx
    match f with
    | [] => cases hx
    | n :: rest =>
      simp only [walkAux] at h
      by_cases hv : n ∈ v
      · rw [if_pos hv] at h
        cases hx with
        | head => exact walkAux_visited_sub g fuel rest v V h x hv
        | tail _ hx => exact ih rest v V h x hx
      · rw [if_neg hv] at h
        by_cases hd : n ∈ g.dom
        · rw [if_pos hd] at h
          cases hx with
          | head =>
            exact walkAux_visited_sub g fuel _ _ V h x (List.mem_cons_self x v)
          | tail _ hx =>
            exact ih _ _ V h x (List.mem_append.mpr (Or.inr hx))
        · rw [if_neg hd] at h; cases h

/-- On success, every visited commit was already visited or is
reachable from some frontier commit. -/
theorem walkAux_mem_of (g : Graph) :
    ∀ fuel f v V, walkAux g fuel f v = .ok V →
      ∀ x ∈ V, x ∈ v ∨ ∃ s ∈ f, Reaches g s x := by
  intro fuel
  induction fuel with
  | zero =>
    intro f v V h x hx
    match f, h with
    | [], h => cases h; exact Or.inl hx
  | succ fuel ih =>
    intro f v V h x hx
    match f with
    | [] => cases h; exact Or.inl hx
    | n :: rest =>
      simp only [walkAux] at h
      by_cases hv : n ∈ v
      · rw [if_pos hv] at h
        rcases ih rest v V h x hx with hxv | ⟨s, hs, hr⟩
        · exact Or.inl hxv
        · exact Or.inr ⟨s, List.mem_cons_of_mem n hs, hr⟩
      · rw [if_neg hv] at h
        by_cases hd : n ∈ g.dom
        · rw [if_pos hd] at h
          rcases ih _ _ V h x hx with hxv | ⟨s, hs, hr⟩
          · cases hxv with
            | head => exact Or.inr ⟨x, List.mem_cons_self x rest, Reaches.refl x⟩
            | tail _ hxv => exact Or.inl hxv
          · rcases List.mem_append.mp hs with hsp | hsr
            · exact Or.inr ⟨n, List.mem_cons_self n rest, Reaches.head hd hsp hr⟩
            · exact Or.inr ⟨s, List.mem_cons_of_mem n hsr, hr⟩
        · rw [if_neg hd] at h; cases h

/-- On success, the result is parent-closed: every visited commit is in
the object database and all its parents are visited, provided the
commits already visited satisfy the matching invariant relative to the
frontier. -/
theorem walkAux_closed (g : Graph) :
    ∀ fuel f v V, walkAux g fuel f v = .ok V →
      (∀ x ∈ v, x ∈ g.dom ∧ ∀ p ∈ g.par x, p ∈ f ∨ p ∈ v) →
      ∀ x ∈ V, x ∈ g.dom ∧ ∀ p ∈ g.par x, p ∈ V := by
  intro fuel
  induction fuel with
  | zero =>
    intro f v V h hinv x hx
    match f, h with
    | [], h =>
      cases h
      refine ⟨(hinv x hx).1, fun p hp => ?_⟩
      rcases (hinv x hx).2 p hp with hpf | hpv
      · cases hpf
      · exact hpv
  | succ fuel ih =>
    intro f v V h hinv x hx
    match f with
    | [] =>
      cases h
      refine ⟨(hinv x hx).1, fun p hp => ?_⟩
      rcases (hinv x hx).2 p hp with hpf | hpv
      · cases hpf
      · exact hpv
    | n :: rest =>
      simp only [walkAux] at h
      by_cases hv : n ∈ v
      · rw [if_pos hv] at h
        refine ih rest v V h (fun y hy => ⟨(hinv y hy).1, fun p hp => ?_⟩) x hx
        rcases (hinv y hy).2 p hp with hpf | hpv
        · cases hpf with
          | head => exact Or.inr hv
          | tail _ hpf => exact Or.inl hpf
        · exact Or.inr hpv
      · rw [if_neg hv] at h
        by_cases hd : n ∈ g.dom
        · rw [if_pos hd] at h
          refine ih _ _ V h (fun y hy => ?_) x hx
          cases hy with
          | head =>
            exact ⟨hd, fun p hp =>
              Or.inl (List.mem_append.mpr (Or.inl hp))⟩
          | tail _ hy =>
            refine ⟨(hinv y hy).1, fun p hp => ?_⟩
            rcases (hinv y hy).2 p hp with hpf | hpv
            · cases hpf with
              | head => exact Or.inr (List.mem_cons_self n v)
              | tail _ hpf =>
                exact Or.inl (List.mem_append.mpr (Or.inr hpf))
            · exact Or.inr (List.mem_cons_of_mem _ hpv)
        · rw [if_neg hd] at h; cases h

/-- Successful walk: a commit is visited exactly when it is reachable
(inclusively, via parent links) from one of the seeds. -/
theorem walk_mem_iff {g : Graph} {seeds V : List NodeId} {x : NodeId}
    (h : walk g seeds = .ok V) :
    x ∈ V ↔ ∃ s ∈ seeds, Reaches g s x := by
  constructor
  · intro hx
    rcases walkAux_mem_of g _ _ _ _ h x hx with hxv | hr
    · cases hxv
    · exact hr
  · rintro ⟨s, hs, hr⟩
    have hclosed := walkAux_closed g _ _ _ _ h (fun y hy => by cases hy)
    have hseed : s ∈ V := walkAux_frontier_sub g _ _ _ _ h s hs
    clear hs h
    induction hr with
    | refl a => exact hseed
    | head ha hb _ ih2 =>
      exact ih2 ((hclosed _ hseed).2 _ hb)

/-- Successful walk: every visited commit lies in the object database. -/
theorem walk_sub_dom {g : Graph} {seeds V : List NodeId}
    (h : walk g seeds = .ok V) : ∀ x ∈ V, x ∈ g.dom := by
  intro x hx
  exact (walkAux_closed g _ _ _ _ h (fun y hy => by cases hy) x hx).1

/-- A walk succeeds whenever the reachable closure of its seeds lies
inside the object database. -/
theorem walk_ok_of_dom {g : Graph} {seeds : List NodeId}
    (h : ∀ x, (∃ s ∈ seeds, Reaches g s x) → x ∈ g.dom) :
    ∃ V, walk g seeds = .ok V :=
  walkAux_ok_of_closed g _ seeds [] (Nat.le_succ_of_le (Nat.le_refl _)) h

theorem bind_ok_iff {α β : Type} {m : Except EK α} {f : α → Except EK β} {b : β} :
    (m >>= f) = .ok b ↔ ∃ a, m = .ok a ∧ f a = .ok b := by
  cases m with
  | ok a => simp [Bind.bind, Except.bind]
  | error e => simp [Bind.bind, Except.bind]

theorem mapE_ok_forall {α β : Type} {f : α → Except EK β} :
    ∀ {xs : List α} {ys : List β}, mapE f xs = .ok ys →
      ∀ x ∈ xs, ∃ y, f x = .ok y ∧ y ∈ ys := by
  intro xs
  induction xs with
  | nil => intro ys _ x hx; cases hx
  | cons a as ih =>
    intro ys h x hx
    simp only [mapE] at h
    rw [bind_ok_iff] at h
    obtain ⟨y, hy, h⟩ := h
    rw [bind_ok_iff] at h
    obtain ⟨ys', hys', h⟩ := h
    cases h
    cases hx with
    | head => exact ⟨y, hy, List.mem_cons_self y ys'⟩
    | tail _ hx =>
      obtain ⟨y', hy', hmem⟩ := ih hys' x hx
      exact ⟨y', hy', List.mem_cons_of_mem y hmem⟩

theorem mapE_ok_mem {α β : Type} {f : α → Except EK β} :
    ∀ {xs : List α} {ys : List β}, mapE f xs = .ok ys →
      ∀ y ∈ ys, ∃ x ∈ xs, f x = .ok y := by
  intro xs
  induction xs with
  | nil =>
    intro ys h y hy
    cases h; cases hy
  | cons a as ih =>
    intro ys h y hy
    simp only [mapE] at h
    rw [bind_ok_iff] at h
    obtain ⟨y', hy', h⟩ := h
    rw [bind_ok_iff] at h
    obtain ⟨ys', hys', h⟩ := h
    cases h
    cases hy with
    | head => exact ⟨a, List.mem_cons_self a as, hy'⟩
    | tail _ hy =>
      obtain ⟨x, hx, hfx⟩ := ih hys' y hy
      exact ⟨x, List.mem_cons_of_mem a hx, hfx⟩

theorem mapE_ok_of {α β : Type} {f : α → Except EK β} :
    ∀ {xs : List α}, (∀ x ∈ xs, ∃ y, f x = .ok y) →
      ∃ ys, mapE f xs = .ok ys := by
  intro xs
  induction xs with
  | nil => intro _; exact ⟨[], rfl⟩
  | cons a as ih =>
    intro h
    obtain ⟨y, hy⟩ := h a (List.mem_cons_self a as)
    obtain ⟨ys, hys⟩ := ih (fun x hx => h x (List.mem_cons_of_mem a hx))
    refine ⟨y :: ys, ?_⟩
    simp only [mapE]
    rw [bind_ok_iff]
    exact ⟨y, hy, by rw [bind_ok_iff]; exact ⟨ys, hys, rfl⟩⟩

theorem peel_ok_iff {g : Graph} {r : Ref} {t : NodeId} :
    peel g r = .ok t ↔ r.target ∈ g.dom ∧ t = r.target := by
  unfold peel
  by_cases h : r.target ∈ g.dom
  · simp [h, eq_comm]
  · simp [h]

theorem pushRefParents_ok_iff {g : Graph} {r : Ref} {ps : List NodeId} :
    pushRefParents g r = .ok ps ↔ r.target ∈ g.dom ∧ ps = g.par r.target := by
  unfold pushRefParents
  rw [bind_ok_iff]
  constructor
  · rintro ⟨t, ht, hps⟩
    obtain ⟨hdom, rfl⟩ := peel_ok_iff.mp ht
    unfold parentsOf at hps
    rw [if_pos hdom] at hps
    cases hps
    exact ⟨hdom, rfl⟩
  · rintro ⟨hdom, rfl⟩
    refine ⟨r.target, peel_ok_iff.mpr ⟨hdom, rfl⟩, ?_⟩
    unfold parentsOf
    rw [if_pos hdom]

/-- Unfolding of a successful `forIssue` run into its three stages. -/
theorem forIssue_ok_elim {g : Graph} {cfg : CollectableRefs} {I : IssueState}
    {R : List Ref} (h : forIssue g cfg I = .ok R) :
    ∃ HO S V, headPart g cfg I = .ok HO ∧ mainSeedsOf g cfg I = .ok S ∧
      walk g S = .ok V ∧
      R = HO ++ I.localLeaves.filter (fun l => decide (l.target ∈ V)) := by
  unfold forIssue at h
  rw [bind_ok_iff] at h
  obtain ⟨HO, hHO, h⟩ := h
  rw [bind_ok_iff] at h
  obtain ⟨S, hS, h⟩ := h
  rw [bind_ok_iff] at h
  obtain ⟨V, hV, h⟩ := h
  cases h
  exact ⟨HO, S, V, hHO, hS, hV, rfl⟩

/-- Unfolding of a successful `headPart` run when a local head exists. -/
theorem headPart_some_elim {g : Graph} {cfg : CollectableRefs} {I : IssueState}
    {h : Ref} {HO : List Ref} (hhead : I.localHead = some h)
    (hHO : headPart g cfg I = .ok HO) :
    h.target ∈ g.dom ∧ ∃ hs vh, headSeeds g cfg I = .ok hs ∧
      walk g hs = .ok vh ∧ HO = if h.target ∈ vh then [h] else [] := by
  unfold headPart at hHO
  rw [hhead] at hHO
  rw [bind_ok_iff] at hHO
  obtain ⟨ht, hht, hHO⟩ := hHO
  obtain ⟨hdom, rfl⟩ := peel_ok_iff.mp hht
  rw [bind_ok_iff] at hHO
  obtain ⟨hs, hhs, hHO⟩ := hHO
  rw [bind_ok_iff] at hHO
  obtain ⟨vh, hvh, hHO⟩ := hHO
  cases hHO
  exact ⟨hdom, hs, vh, hhs, hvh, rfl⟩

/-- Unfolding of a successful `mainSeedsOf` run. -/
theorem mainSeedsOf_ok_elim {g : Graph} {cfg : CollectableRefs} {I : IssueState}
    {S : List NodeId} (hS : mainSeedsOf g cfg I = .ok S) :
    ∃ B LS RS, baseSeeds g I = .ok B ∧ leafSeeds g I = .ok LS ∧
      remoteSeeds g cfg I = .ok RS ∧ S = B ++ LS ++ RS := by
  unfold mainSeedsOf at hS
  rw [bind_ok_iff] at hS
  obtain ⟨B, hB, hS⟩ := hS
  rw [bind_ok_iff] at hS
  obtain ⟨LS, hLS, hS⟩ := hS
  rw [bind_ok_iff] at hS
  obtain ⟨RS, hRS, hS⟩ := hS
  cases hS
  exact ⟨B, LS, RS, hB, hLS, hRS, rfl⟩

/-- Membership in the leaf-contributed seeds: exactly the parents of
the leaves' commits. -/
theorem leafSeeds_mem {g : Graph} {I : IssueState} {LS : List NodeId}
    (hLS : leafSeeds g I = .ok LS) :
    ∀ x, x ∈ LS ↔ ∃ l ∈ I.localLeaves, l.target ∈ g.dom ∧ x ∈ g.par l.target := by
  intro x
  unfold leafSeeds at hLS
  rw [bind_ok_iff] at hLS
  obtain ⟨pss, hpss, hLS⟩ := hLS
  cases hLS
  rw [List.mem_flatten]
  constructor
  · rintro ⟨ps, hpsmem, hx⟩
    obtain ⟨l, hl, hfl⟩ := mapE_ok_mem hpss ps hpsmem
    obtain ⟨hdom, rfl⟩ := pushRefParents_ok_iff.mp hfl
    exact ⟨l, hl, hdom, hx⟩
  · rintro ⟨l, hl, hdom, hx⟩
    obtain ⟨ps, hfl, hpsmem⟩ := mapE_ok_forall hpss l hl
    obtain ⟨_, rfl⟩ := pushRefParents_ok_iff.mp hfl
    exact ⟨g.par l.target, hpsmem, hx⟩

/-- Helper: in a graph all of whose parent links strictly decrease the
commit id, ancestry only goes downward. -/
theorem reaches_le_of_parents_lt {g : Graph}
    (hlt : ∀ a ∈ g.dom, ∀ b ∈ g.par a, b < a) :
    ∀ {x y : NodeId}, Reaches g x y → y ≤ x := by
  intro x y hr
  induction hr with
  | refl a => exact Nat.le_refl _
  | head ha hb _ ih => exact Nat.le_trans ih (Nat.le_of_lt (hlt _ ha _ hb))

/-- Helper: a graph whose parent links strictly decrease ids is a DAG. -/
theorem dag_of_parents_lt {g : Graph}
    (hlt : ∀ a ∈ g.dom, ∀ b ∈ g.par a, b < a) : Dag g := by
  intro a b ha hb hr
  have h1 : a ≤ b := reaches_le_of_parents_lt hlt hr
  have h2 : b < a := hlt a ha b hb
  exact (Nat.not_lt.mpr h1) h2

/-- Helper: an empty walk succeeds visiting nothing. -/
theorem walk_nil_eq (g : Graph) : walk g [] = .ok [] := by
  simp [walk, walkAux]

/-- Claim C1: for every issue, every local tip (leaf) reference whose
target commit is an ancestor, via any path seeded into the main
frontier (the local head reference's target, the other leaves'
parents, or — when configured — the remote references' targets), of a
retained seed is in the collectable set returned by `for_issue`; in
particular every leaf whose target commit is an ancestor of the local
head reference's target commit is collected. -/
theorem claimC1 (g : Graph) (cfg : CollectableRefs) (I : IssueState)
    (R : List Ref) (l : Ref)
    (hrun : forIssue g cfg I = .ok R) (hl : l ∈ I.localLeaves) :
    ((∃ S, mainSeedsOf g cfg I = .ok S ∧ ∃ s ∈ S, Reaches g s l.target) → l ∈ R)
    ∧ (∀ h, I.localHead = some h → Reaches g h.target l.target → l ∈ R) := by
  obtain ⟨HO, S, V, hHO, hS, hV, hR⟩ := forIssue_ok_elim hrun
  have hmain : ∀ s ∈ S, Reaches g s l.target → l ∈ R := by
    intro s hsS hreach
    have hmem : l.target ∈ V := (walk_mem_iff hV).mpr ⟨s, hsS, hreach⟩
    rw [hR]
    refine List.mem_append.mpr (Or.inr ?_)
    exact List.mem_filter.mpr ⟨hl, by simp [hmem]⟩
  constructor
  · rintro ⟨S', hS', s, hsS', hreach⟩
    rw [hS] at hS'
    cases hS'
    exact hmain s hsS' hreach
  · intro h hhead hreach
    obtain ⟨B, LS, RS, hB, hLS, hRS, hSeq⟩ := mainSeedsOf_ok_elim hS
    have hBval : B = [h.target] := by
      unfold baseSeeds at hB
      rw [hhead] at hB
      rw [bind_ok_iff] at hB
      obtain ⟨t, ht, hB⟩ := hB
      obtain ⟨_, rfl⟩ := peel_ok_iff.mp ht
      cases hB
      rfl
    have hht : h.target ∈ S := by
      rw [hSeq, hBval]
      exact List.mem_append.mpr (Or.inl (List.mem_append.mpr (Or.inl
        (List.mem_cons_self _ _))))
    exact hmain h.target hht hreach

/-- Claim C2: `push_ref_parents` pushes exactly the parent ids of the
leaf's target commit, never the target itself; a leaf whose target has
zero parents contributes no seeds; on a DAG none of the contributed
seeds reaches the leaf's own commit, so a lone leaf is never collected
through its own parent seeds. -/
theorem claimC2 (g : Graph) (l : Ref) (ps : List NodeId)
    (hok : pushRefParents g l = .ok ps) :
    ps = g.par l.target
    ∧ (g.par l.target = [] → ps = [])
    ∧ (Dag g → ∀ s ∈ ps, ¬ Reaches g s l.target)
    ∧ (Dag g → ∀ (cfg : CollectableRefs) (R : List Ref),
        forIssue g cfg ⟨none, [l], [], []⟩ = .ok R → l ∉ R) := by
  obtain ⟨hdom, rfl⟩ := pushRefParents_ok_iff.mp hok
  refine ⟨rfl, fun h => h, fun hdag s hs => hdag _ _ hdom hs, ?_⟩
  intro hdag cfg R hrun hlR
  obtain ⟨HO, S, V, hHO, hS, hV, hR⟩ := forIssue_ok_elim hrun
  have hHOval : HO = [] := by
    unfold headPart at hHO
    cases hHO
    rfl
  obtain ⟨B, LS, RS, hB, hLS, hRS, hSeq⟩ := mainSeedsOf_ok_elim hS
  have hBval : B = [] := by
    unfold baseSeeds at hB
    cases hB
    rfl
  have hRSval : RS = [] := by
    unfold remoteSeeds at hRS
    by_cases hc : cfg.considerRemoteRefs
    · rw [if_pos hc] at hRS
      simp only [mapE] at hRS
      cases hRS
      rfl
    · rw [if_neg hc] at hRS
      cases hRS
      rfl
  rw [hR, hHOval] at hlR
  have hlmem : l.target ∈ V := by simpa using hlR
  obtain ⟨s, hsS, hreach⟩ := (walk_mem_iff hV).mp hlmem
  rw [hSeq, hBval, hRSval] at hsS
  have hsLS : s ∈ LS := by simpa using hsS
  obtain ⟨l', hl', hdom', hspar⟩ := (leafSeeds_mem hLS s).mp hsLS
  have : l' = l := by simpa using hl'
  subst this
  exact hdag _ _ hdom' hspar hreach

/-- Claim C3: under `collect_heads = Never` (the default), the local
head reference is never in the collectable set computed by
`for_issue`, whatever the remote references and the rest of the
configuration are. -/
theorem claimC3 (g : Graph) (cfg : CollectableRefs) (I : IssueState)
    (R : List Ref) (h : Ref)
    (hnever : cfg.collectHeads = .Never) (hWF : I.WF)
    (hrun : forIssue g cfg I = .ok R) (hhead : I.localHead = some h) :
    h ∉ R := by
  obtain ⟨HO, S, V, hHO, hS, hV, hR⟩ := forIssue_ok_elim hrun
  obtain ⟨hdom, hs, vh, hhs, hvh, hHOval⟩ := headPart_some_elim hhead hHO
  have hhsval : hs = [] := by
    unfold headSeeds at hhs
    rw [hnever] at hhs
    cases hhs
    rfl
  rw [hhsval, walk_nil_eq] at hvh
  cases hvh
  have hHOnil : HO = [] := by
    rw [hHOval]
    simp
  intro hmem
  rw [hR, hHOnil] at hmem
  have hfil : h ∈ I.localLeaves ∧ h.target ∈ V := by simpa using hmem
  exact (hWF.1 h (by simp [hhead])).1 hfil.1

/-- Claim C4: under `collect_heads = BackedByRemoteHead`, the local
head reference is in the collectable set computed by `for_issue` if
and only if its target commit is an ancestor (inclusively) of some
remote head reference's target commit; the check runs against the
separate frontier seeded only from the remote head targets. -/
theorem claimC4 (g : Graph) (cfg : CollectableRefs) (I : IssueState)
    (R : List Ref) (h : Ref)
    (hback : cfg.collectHeads = .BackedByRemoteHead) (hWF : I.WF)
    (hrun : forIssue g cfg I = .ok R) (hhead : I.localHead = some h) :
    h ∈ R ↔ ∃ r ∈ I.remoteHeads, Reaches g r.target h.target := by
  obtain ⟨HO, S, V, hHO, hS, hV, hR⟩ := forIssue_ok_elim hrun
  obtain ⟨hdom, hs, vh, hhs, hvh, hHOval⟩ := headPart_some_elim hhead hHO
  have hhsval : mapE (peel g) I.remoteHeads = .ok hs := by
    unfold headSeeds at hhs
    rw [hback] at hhs
    exact hhs
  have hnotleaf : h ∉ I.localLeaves := (hWF.1 h (by simp [hhead])).1
  have hmemR : h ∈ R ↔ h.target ∈ vh := by
    rw [hR]
    constructor
    · intro hmem
      rcases List.mem_append.mp hmem with hmem | hmem
      · rw [hHOval] at hmem
        by_cases hc : h.target ∈ vh
        · exact hc
        · rw [if_neg hc] at hmem
          cases hmem
      · exact absurd (List.mem_filter.mp hmem).1 hnotleaf
    · intro hc
      refine List.mem_append.mpr (Or.inl ?_)
      rw [hHOval, if_pos hc]
      exact List.mem_cons_self _ _
  rw [hmemR, walk_mem_iff hvh]
  constructor
  · rintro ⟨s, hsmem, hreach⟩
    obtain ⟨r, hrmem, hpeel⟩ := mapE_ok_mem hhsval s hsmem
    obtain ⟨_, rfl⟩ := peel_ok_iff.mp hpeel
    exact ⟨r, hrmem, hreach⟩
  · rintro ⟨r, hrmem, hreach⟩
    obtain ⟨y, hpeel, hymem⟩ := mapE_ok_forall hhsval r hrmem
    obtain ⟨_, rfl⟩ := peel_ok_iff.mp hpeel
    exact ⟨r.target, hymem, hreach⟩

/-- Claim C5: with `consider_remote_refs = false` — the default
produced by `CollectableRefs::new` — `for_issue` is independent of all
remote-scope references (two repositories differing only in remote
references yield the very same computation), and the collectable set
never contains a remote-scope reference. -/
theorem claimC5 :
    (∀ (g : Graph) (lh : Option Ref) (ll rh rl rh' rl' : List Ref),
      forIssue g CollectableRefs.new ⟨lh, ll, rh, rl⟩
        = forIssue g CollectableRefs.new ⟨lh, ll, rh', rl'⟩)
    ∧ (∀ (g : Graph) (cfg : CollectableRefs) (I : IssueState) (R : List Ref),
        cfg.considerRemoteRefs = false → I.WF → forIssue g cfg I = .ok R →
        ∀ r ∈ R, r ∉ I.remoteHeads ∧ r ∉ I.remoteLeaves) := by
  constructor
  · intro g lh ll rh rl rh' rl'
    rfl
  · intro g cfg I R _ hWF hrun r hr
    obtain ⟨HO, S, V, hHO, hS, hV, hR⟩ := forIssue_ok_elim hrun
    rw [hR] at hr
    rcases List.mem_append.mp hr with hmem | hmem
    · unfold headPart at hHO
      cases hh : I.localHead with
      | none =>
        rw [hh] at hHO
        cases hHO
        cases hmem
      | some h =>
        obtain ⟨_, hs, vh, _, _, hHOval⟩ := headPart_some_elim hh hHO
        rw [hHOval] at hmem
        by_cases hc : h.target ∈ vh
        · rw [if_pos hc] at hmem
          have : r = h := by simpa using hmem
          subst this
          have := hWF.1 r (by simp [hh])
          exact ⟨this.2.1, this.2.2⟩
        · rw [if_neg hc] at hmem
          cases hmem
    · exact hWF.2 r (List.mem_filter.mp hmem).1

theorem ok_bind {α β : Type} (a : α) (f : α → Except EK β) :
    ((.ok a : Except EK α) >>= f) = f a := rfl

/-- Every reference `for_issue` reports is one of the issue's local
references: a local leaf or the local head.  Remote references are
only ever seeded, never watched. -/
theorem forIssue_ok_sub {g : Graph} {cfg : CollectableRefs} {I : IssueState}
    {R : List Ref} (hrun : forIssue g cfg I = .ok R) :
    ∀ r ∈ R, r ∈ I.localLeaves ∨ I.localHead = some r := by
  intro r hr
  obtain ⟨HO, S, V, hHO, hS, hV, hR⟩ := forIssue_ok_elim hrun
  rw [hR] at hr
  rcases List.mem_append.mp hr with hmem | hmem
  · cases hh : I.localHead with
    | none =>
      unfold headPart at hHO
      rw [hh] at hHO
      cases hHO
      cases hmem
    | some h =>
      obtain ⟨_, hs, vh, _, _, hHOval⟩ := headPart_some_elim hh hHO
      rw [hHOval] at hmem
      by_cases hc : h.target ∈ vh
      · rw [if_pos hc] at hmem
        have : r = h := by simpa using hmem
        subst this
        exact Or.inr rfl
      · rw [if_neg hc] at hmem
        cases hmem
  · exact Or.inl (List.mem_filter.mp hmem).1

theorem headPart_some_eq {g : Graph} {cfg : CollectableRefs} {J : IssueState}
    {h : Ref} (hloc : J.localHead = some h) :
    headPart g cfg J = (do
      let ht ← peel g h
      let hs ← headSeeds g cfg J
      let vh ← walk g hs
      Except.ok (if ht ∈ vh then [h] else [])) := by
  unfold headPart
  rw [hloc]

theorem baseSeeds_some_eq {g : Graph} {J : IssueState} {h : Ref}
    (hloc : J.localHead = some h) :
    baseSeeds g J = (do
      let t ← peel g h
      Except.ok [t]) := by
  unfold baseSeeds
  rw [hloc]

/-- A second `for_issue` pass is empty once its seeds are covered by a
successful first pass and no remaining leaf's commit was visited. -/
theorem forIssue_second_empty {g : Graph} {cfg : CollectableRefs}
    {J : IssueState} {S1 V1 : List NodeId} (B2 LS2 RS2 : List NodeId)
    (hV1 : walk g S1 = .ok V1)
    (hHO2 : headPart g cfg J = .ok [])
    (hB2 : baseSeeds g J = .ok B2)
    (hLS2 : leafSeeds g J = .ok LS2)
    (hRS2 : remoteSeeds g cfg J = .ok RS2)
    (hsub : ∀ x ∈ B2 ++ LS2 ++ RS2, x ∈ S1)
    (hleaf : ∀ l ∈ J.localLeaves, l.target ∉ V1) :
    forIssue g cfg J = .ok [] := by
  have hS2 : mainSeedsOf g cfg J = .ok (B2 ++ LS2 ++ RS2) := by
    unfold mainSeedsOf
    rw [hB2, ok_bind, hLS2, ok_bind, hRS2, ok_bind]
  obtain ⟨V2, hV2⟩ : ∃ V2, walk g (B2 ++ LS2 ++ RS2) = .ok V2 := by
    apply walk_ok_of_dom
    rintro x ⟨s, hs, hr⟩
    exact walk_sub_dom hV1 x ((walk_mem_iff hV1).mpr ⟨s, hsub s hs, hr⟩)
  have hV2sub : ∀ x ∈ V2, x ∈ V1 := by
    intro x hx
    obtain ⟨s, hs, hr⟩ := (walk_mem_iff hV2).mp hx
    exact (walk_mem_iff hV1).mpr ⟨s, hsub s hs, hr⟩
  have hfil : J.localLeaves.filter (fun l => decide (l.target ∈ V2)) = [] := by
    rw [List.filter_eq_nil_iff]
    intro l hl
    simp only [decide_eq_true_eq]
    intro hc
    exact hleaf l hl (hV2sub _ hc)
  unfold forIssue
  rw [hHO2, ok_bind, hS2, ok_bind, hV2, ok_bind, hfil]
  rfl

/-- Claim C6: idempotence of collection — running `for_issue` again
after physically deleting the references collected by a successful
first pass yields an empty collectable set. -/
theorem claimC6 (g : Graph) (cfg : CollectableRefs) (I : IssueState)
    (R1 : List Ref) (hWF : I.WF) (h1 : forIssue g cfg I = .ok R1) :
    forIssue g cfg (applyCollection I R1) = .ok [] := by
  obtain ⟨HO, S1, V1, hHO, hS1, hV1, hR1⟩ := forIssue_ok_elim h1
  have hnotR : ∀ r, r ∈ I.remoteHeads ∨ r ∈ I.remoteLeaves → r ∉ R1 := by
    intro r hrem hrR
    rcases forIssue_ok_sub h1 r hrR with hleaf | hhead
    · rcases hrem with h' | h'
      · exact (hWF.2 r hleaf).1 h'
      · exact (hWF.2 r hleaf).2 h'
    · have := hWF.1 r (by simp [hhead])
      rcases hrem with h' | h'
      · exact this.2.1 h'
      · exact this.2.2 h'
  have hrh : (applyCollection I R1).remoteHeads = I.remoteHeads := by
    simp only [applyCollection]
    rw [List.filter_eq_self]
    intro r hr
    simpa using hnotR r (Or.inl hr)
  have hrl : (applyCollection I R1).remoteLeaves = I.remoteLeaves := by
    simp only [applyCollection]
    rw [List.filter_eq_self]
    intro r hr
    simpa using hnotR r (Or.inr hr)
  have hll : (applyCollection I R1).localLeaves
      = I.localLeaves.filter (fun l => decide (l ∉ R1)) := rfl
  obtain ⟨B, LS, RS, hB, hLS, hRS, hSeq⟩ := mainSeedsOf_ok_elim hS1
  have hLSmem := leafSeeds_mem hLS
  have hleafok : ∀ l ∈ I.localLeaves, ∃ ps, pushRefParents g l = .ok ps := by
    unfold leafSeeds at hLS
    rw [bind_ok_iff] at hLS
    obtain ⟨pss, hpss, _⟩ := hLS
    intro l hl
    obtain ⟨ps, hps, _⟩ := mapE_ok_forall hpss l hl
    exact ⟨ps, hps⟩
  obtain ⟨pss2, hpss2⟩ :=
    @mapE_ok_of Ref (List NodeId) (pushRefParents g)
      (I.localLeaves.filter (fun l => decide (l ∉ R1)))
      (fun l hl => hleafok l (List.mem_filter.mp hl).1)
  have hLS2 : leafSeeds g (applyCollection I R1) = .ok pss2.flatten := by
    unfold leafSeeds
    rw [hll, hpss2, ok_bind]
  have hLS2mem := leafSeeds_mem hLS2
  have hLS2sub : ∀ x ∈ pss2.flatten, x ∈ LS := by
    intro x hx
    obtain ⟨l, hl, hdom, hpar⟩ := (hLS2mem x).mp hx
    rw [hll] at hl
    exact (hLSmem x).mpr ⟨l, (List.mem_filter.mp hl).1, hdom, hpar⟩
  have hRS2 : remoteSeeds g cfg (applyCollection I R1) = .ok RS := by
    unfold remoteSeeds at hRS ⊢
    rw [hrh, hrl]
    exact hRS
  have hleafgone : ∀ l ∈ (applyCollection I R1).localLeaves, l.target ∉ V1 := by
    intro l hl hc
    rw [hll] at hl
    have hfl := List.mem_filter.mp hl
    have hlR : l ∈ R1 := by
      rw [hR1]
      refine List.mem_append.mpr (Or.inr ?_)
      exact List.mem_filter.mpr ⟨hfl.1, by simp [hc]⟩
    have : l ∉ R1 := by simpa using hfl.2
    exact this hlR
  cases hh : I.localHead with
  | none =>
    have hloc2 : (applyCollection I R1).localHead = none := by
      simp only [applyCollection, hh]
    have hBval : B = [] := by
      unfold baseSeeds at hB
      rw [hh] at hB
      cases hB
      rfl
    refine forIssue_second_empty [] pss2.flatten RS hV1 ?_ ?_ hLS2 hRS2 ?_ hleafgone
    · unfold headPart
      rw [hloc2]
    · unfold baseSeeds
      rw [hloc2]
    · intro x hx
      rw [hSeq]
      rcases List.mem_append.mp hx with hx | hx
      · rcases List.mem_append.mp hx with hx | hx
        · cases hx
        · exact List.mem_append.mpr (Or.inl (List.mem_append.mpr
            (Or.inr (hLS2sub x hx))))
      · exact List.mem_append.mpr (Or.inr hx)
  | some h =>
    obtain ⟨hdom, hs, vh, hhs, hvh, hHOval⟩ := headPart_some_elim hh hHO
    have hBval : B = [h.target] := by
      unfold baseSeeds at hB
      rw [hh] at hB
      rw [bind_ok_iff] at hB
      obtain ⟨t, ht, hB⟩ := hB
      obtain ⟨_, rfl⟩ := peel_ok_iff.mp ht
      cases hB
      rfl
    by_cases hhR : h ∈ R1
    · have hloc2 : (applyCollection I R1).localHead = none := by
        simp only [applyCollection, hh, if_pos hhR]
      refine forIssue_second_empty [] pss2.flatten RS hV1 ?_ ?_ hLS2 hRS2 ?_ hleafgone
      · unfold headPart
        rw [hloc2]
      · unfold baseSeeds
        rw [hloc2]
      · intro x hx
        rw [hSeq]
        rcases List.mem_append.mp hx with hx | hx
        · rcases List.mem_append.mp hx with hx | hx
          · cases hx
          · exact List.mem_append.mpr (Or.inl (List.mem_append.mpr
              (Or.inr (hLS2sub x hx))))
        · exact List.mem_append.mpr (Or.inr hx)
    · have hloc2 : (applyCollection I R1).localHead = some h := by
        simp only [applyCollection, hh, if_neg hhR]
      have hnvh : h.target ∉ vh := by
        intro hc
        apply hhR
        rw [hR1, hHOval, if_pos hc]
        exact List.mem_append.mpr (Or.inl (List.mem_cons_self _ _))
      have hpeelh : peel g h = .ok h.target := peel_ok_iff.mpr ⟨hdom, rfl⟩
      have hhs2 : headSeeds g cfg (applyCollection I R1) = .ok hs := by
        unfold headSeeds at hhs ⊢
        cases hcs : cfg.collectHeads with
        | Never => rw [hcs] at hhs; exact hhs
        | BackedByRemoteHead =>
          rw [hcs] at hhs
          rw [hrh]
          exact hhs
      refine forIssue_second_empty [h.target] pss2.flatten RS hV1 ?_ ?_ hLS2 hRS2 ?_ hleafgone
      · rw [headPart_some_eq hloc2, hpeelh, ok_bind, hhs2, ok_bind, hvh, ok_bind,
          if_neg hnvh]
      · rw [baseSeeds_some_eq hloc2, hpeelh, ok_bind]
      · intro x hx
        rw [hSeq, hBval]
        rcases List.mem_append.mp hx with hx | hx
        · rcases List.mem_append.mp hx with hx | hx
          · exact List.mem_append.mpr (Or.inl (List.mem_append.mpr (Or.inl hx)))
          · exact List.mem_append.mpr (Or.inl (List.mem_append.mpr
              (Or.inr (hLS2sub x hx))))
        · exact List.mem_append.mpr (Or.inr hx)

theorem firstOkIssue_none {R : Repo} :
    ∀ {ids : List NodeId}, (∀ i ∈ ids, R.headRefs i = []) →
      firstOkIssue R ids = none := by
  intro ids
  induction ids with
  | nil => intro _; rfl
  | cons a as ih =>
    intro h
    have ha : R.headRefs a = [] := h a (List.mem_cons_self a as)
    have hfa : findIssue R a = .error (.cannotFindIssueHead a) := by
      unfold findIssue
      rw [ha]
    unfold firstOkIssue
    rw [hfa]
    exact ih (fun i hi => h i (List.mem_cons_of_mem a hi))

theorem splitSlashAux_length :
    ∀ (l acc : List Char), (splitSlashAux l acc).length = l.count '/' + 1 := by
  intro l
  induction l with
  | nil => intro acc; simp [splitSlashAux]
  | cons c cs ih =>
    intro acc
    by_cases hc : c = '/'
    · subst hc
      simp [splitSlashAux, ih, List.count_cons]
    · simp [splitSlashAux, hc, ih, List.count_cons]

theorem secondToLast_of_ge_two (parts : List (List Char))
    (h : 2 ≤ parts.length) : ∃ seg, secondToLast parts = some seg := by
  have hlen : parts.reverse.length = parts.length := List.length_reverse parts
  unfold secondToLast
  cases hrev : parts.reverse with
  | nil =>
    rw [hrev] at hlen
    simp at hlen
    omega
  | cons x t =>
    cases t with
    | nil =>
      rw [hrev] at hlen
      simp at hlen
      omega
    | cons y rest => exact ⟨y, rfl⟩

theorem slash_mem_of_endsWithHead {n : List Char}
    (h : slashHead.isSuffixOf n = true) : ('/' : Char) ∈ n := by
  have hs : slashHead <:+ n := by
    rwa [List.isSuffixOf_iff_suffix] at h
  obtain ⟨t, ht⟩ := hs
  rw [← ht]
  exact List.mem_append.mpr (Or.inr (by decide))

theorem splitSlash_len_ge_two {n : List Char} (h : ('/' : Char) ∈ n) :
    2 ≤ (splitSlash n).length := by
  unfold splitSlash
  rw [splitSlashAux_length]
  have hc : 0 < n.count '/' := List.count_pos_iff.mpr h
  omega

/-- Claim C7: graph-access errors are surfaced to the caller:
`issue_with_message` propagates an error of its first-parent walk
(when no earlier chain element resolves to an issue) instead of
swallowing it, and the single documented exception holds — an absent
local head reference makes `for_issue` proceed as "this issue has no
local boundary" rather than fail. -/
theorem claimC7 :
    (∀ (R : Repo) (g : Graph) (m : NodeId) (ids : List NodeId) (e : EK),
      firstParentChain g m = (ids, some e) →
      (∀ i ∈ ids, R.headRefs i = []) →
      issueWithMessage R g m = .error e)
    ∧ (∀ (g : Graph) (cfg : CollectableRefs) (I : IssueState),
        I.localHead = none →
        forIssue g cfg I = (do
          let S ← mainSeedsOf g cfg I
          let V ← walk g S
          Except.ok (I.localLeaves.filter (fun l => decide (l.target ∈ V))))) := by
  constructor
  · intro R g m ids e hchain hno
    unfold issueWithMessage
    rw [hchain]
    rw [firstOkIssue_none hno]
  · intro g cfg I hnone
    unfold forIssue
    have hHP : headPart g cfg I = .ok [] := by
      unfold headPart
      rw [hnone]
    rw [hHP, ok_bind]
    simp only [List.nil_append]

/-- Claim C8: `find_issue` succeeds exactly when at least one boundary
(head) reference exists for the root id, returning the issue handle
for that id; otherwise it fails with `CannotFindIssueHead` — an error
distinct from the unknown-node error. -/
theorem claimC8 (R : Repo) (id : NodeId) :
    (R.headRefs id ≠ [] → findIssue R id = .ok ⟨id⟩)
    ∧ (R.headRefs id = [] → findIssue R id = .error (.cannotFindIssueHead id))
    ∧ ((∃ i, findIssue R id = .ok i) ↔ R.headRefs id ≠ [])
    ∧ (∀ n, EK.cannotFindIssueHead id ≠ EK.unknownNode n) := by
  refine ⟨?_, ?_, ?_, ?_⟩
  · intro hne
    unfold findIssue
    cases hR : R.headRefs id with
    | nil => exact absurd hR hne
    | cons a as => rfl
  · intro he
    unfold findIssue
    rw [he]
  · constructor
    · rintro ⟨i, hi⟩ he
      unfold findIssue at hi
      rw [he] at hi
      cases hi
    · intro hne
      refine ⟨⟨id⟩, ?_⟩
      unfold findIssue
      cases hR : R.headRefs id with
      | nil => exact absurd hR hne
      | cons a as => rfl
  · intro n h
    cases h

/-- Claim C9 (amended): a reference name ending in the fixed terminal
segment `/head` always has a second-to-last segment; when that segment
parses as an object id, `issue_by_head_ref` returns the issue rooted
at that id.  A name that is absent or does not end in `/head` fails
with the malformed-reference error; a name that ends in `/head` but
whose second-to-last segment is not a valid object id fails with the
distinct id-format error.  Neither failure is a not-found error. -/
theorem claimC9 (R : Repo) (n : List Char) :
    (slashHead.isSuffixOf n = true → ∃ seg, secondToLast (splitSlash n) = some seg)
    ∧ (∀ seg id, slashHead.isSuffixOf n = true →
        secondToLast (splitSlash n) = some seg → oidFromStr seg = some id →
        issueByHeadRef R (some n) = .ok ⟨id⟩)
    ∧ (∀ seg, slashHead.isSuffixOf n = true →
        secondToLast (splitSlash n) = some seg → oidFromStr seg = none →
        issueByHeadRef R (some n) = .error (.oidFormatError seg))
    ∧ (slashHead.isSuffixOf n = false →
        issueByHeadRef R (some n) = .error (.malFormedHeadReference n))
    ∧ (issueByHeadRef R none = .error (.malFormedHeadReference []))
    ∧ (∀ (s t : List Char) (i : NodeId),
        EK.malFormedHeadReference s ≠ EK.oidFormatError t
        ∧ EK.malFormedHeadReference s ≠ EK.cannotFindIssueHead i
        ∧ EK.oidFormatError t ≠ EK.cannotFindIssueHead i) := by
  refine ⟨?_, ?_, ?_, ?_, rfl, ?_⟩
  · intro hsuf
    exact secondToLast_of_ge_two _
      (splitSlash_len_ge_two (slash_mem_of_endsWithHead hsuf))
  · intro seg id hsuf hseg hoid
    have hsuf2 : slashHead <:+ n := List.isSuffixOf_iff_suffix.mp hsuf
    simp [issueByHeadRef, hsuf2, hseg, hoid]
  · intro seg hsuf hseg hoid
    have hsuf2 : slashHead <:+ n := List.isSuffixOf_iff_suffix.mp hsuf
    simp [issueByHeadRef, hsuf2, hseg, hoid]
  · intro hsuf
    have hsuf2 : ¬ slashHead <:+ n := by
      intro hc
      rw [← List.isSuffixOf_iff_suffix, hsuf] at hc
      cases hc
    simp [issueByHeadRef, hsuf2]
  · intro s t i
    refine ⟨?_, ?_, ?_⟩ <;> intro hcon <;> cases hcon

/-- Claim C9, counterexample to the claim as stated: the reference
name `refs/dit/zz/head` ends with the boundary terminal segment but
carries an invalid root id; `issue_by_head_ref` fails with the
id-format error, not with the malformed-reference error the claim
prescribes for every name that fails to match the full shape. -/
theorem claimC9_cx :
    issueByHeadRef rEmpty (some ("refs/dit/zz/head".toList))
      = .error (.oidFormatError ("zz".toList))
    ∧ EK.isMalformedRef (.oidFormatError ("zz".toList)) = false := by
  exact ⟨rfl, rfl⟩

/-- Claim C10: `issue_by_head_ref` succeeds on the shape of the name
alone — for the well-formed head-reference name `refs/dit/ab/head`
whose embedded root id (0xab = 171) has no boundary reference in the
repository, it succeeds, while `find_issue` on the same id fails. -/
theorem claimC10 :
    issueByHeadRef rEmpty (some ("refs/dit/ab/head".toList)) = .ok ⟨171⟩
    ∧ findIssue rEmpty 171 = .error (.cannotFindIssueHead 171) := by
  exact ⟨rfl, rfl⟩

theorem claimC1_witness : (⟨"l1", 1⟩ : Ref) ∈ [(⟨"l1", 1⟩ : Ref)] :=
  (claimC1 gW CollectableRefs.new iW [⟨"l1", 1⟩] ⟨"l1", 1⟩ rfl (by decide)).2
    ⟨"h", 3⟩ rfl
    (Reaches.head (b := 2) (by decide) (by decide)
      (Reaches.head (b := 1) (by decide) (by decide) (Reaches.refl 1)))

theorem claimC2_witness :
    ([0] : List NodeId) = gW.par 1 ∧ ¬ Reaches gW 0 1 := by
  have h := claimC2 gW ⟨"l1", 1⟩ [0] rfl
  exact ⟨h.1, h.2.2.1 (dag_of_parents_lt (by decide)) 0 (by decide)⟩

theorem claimC3_witness : (⟨"h", 3⟩ : Ref) ∉ [(⟨"l1", 1⟩ : Ref)] :=
  claimC3 gW CollectableRefs.new iW [⟨"l1", 1⟩] ⟨"h", 3⟩ rfl (by decide) rfl rfl

theorem claimC4_witness : (⟨"h", 2⟩ : Ref) ∈ [(⟨"h", 2⟩ : Ref)] :=
  (claimC4 gW (CollectableRefs.new.withCollectHeads .BackedByRemoteHead) iW2
      [⟨"h", 2⟩] ⟨"h", 2⟩ rfl (by decide) rfl rfl).mpr
    ⟨⟨"rh", 4⟩, by decide,
      Reaches.head (b := 2) (by decide) (by decide) (Reaches.refl 2)⟩

theorem claimC5_witness :
    (⟨"l1", 1⟩ : Ref) ∉ iW.remoteHeads ∧ (⟨"l1", 1⟩ : Ref) ∉ iW.remoteLeaves :=
  claimC5.2 gW CollectableRefs.new iW [⟨"l1", 1⟩] rfl (by decide) rfl
    ⟨"l1", 1⟩ (by decide)

theorem claimC6_witness :
    forIssue gW CollectableRefs.new (applyCollection iW [⟨"l1", 1⟩]) = .ok [] :=
  claimC6 gW CollectableRefs.new iW [⟨"l1", 1⟩] (by decide) rfl

theorem claimC7_witness : issueWithMessage rEmpty gE 5 = .error (.unknownNode 7) :=
  claimC7.1 rEmpty gE 5 [5] (.unknownNode 7) rfl (by decide)

theorem claimC8_witness :
    findIssue rOne 5 = .ok ⟨5⟩
    ∧ findIssue rOne 6 = .error (.cannotFindIssueHead 6) :=
  ⟨(claimC8 rOne 5).1 (by decide), (claimC8 rOne 6).2.1 (by decide)⟩

theorem claimC9_witness :
    issueByHeadRef rEmpty (some ("refs/dit/ab/head".toList)) = .ok ⟨171⟩ :=
  (claimC9 rEmpty ("refs/dit/ab/head".toList)).2.1 ("ab".toList) 171
    (by decide) rfl rfl

end GitDit
